import Mathlib

/-!
Verification of the determinism-test harness of the `mtg-forge-rs` repository.

The Python harness (tests/snapshot_stress_test.py, tests/snapshot_stress_test_single.py,
scripts/snapshot_stress_test_single.py, scripts/diff_logs.py, scripts/diff_gamestate.py,
scripts/test_snapshot_determinism.py) is shallowly embedded here: transcript lines are
`List Char`, transcripts are `List Char` (split on newline), JSON game-state captures are
a `JValue` inductive, and the external simulation binary — which lives outside the
Python sources — is modelled from the spec as a deterministic step machine.
-/

/-! ## String utilities (Python `in`, `str.strip`, `str.lower`) -/

/-- Python substring test `needle in hay`, on character lists. -/
def hasSub (needle : List Char) : List Char → Bool
  | [] => needle.isEmpty
  | c :: t => needle.isPrefixOf (c :: t) || hasSub needle t

/-- Python `str.strip()`: drop whitespace at both ends. -/
def pyStrip (s : List Char) : List Char :=
  ((s.dropWhile Char.isWhitespace).reverse.dropWhile Char.isWhitespace).reverse

/-- Python `str.lower()` on the ASCII transcripts the harness handles. -/
def pyLower (s : List Char) : List Char := s.map Char.toLower

/-- The apostrophe character, used in the turn-owner marker phrases. -/
def apos : Char := Char.ofNat 39

/-! ## TraceExtractor: `extract_choice_from_line`
(tests/snapshot_stress_test.py lines 48-66) -/

/-- Decimal value of a digit run, as Python `int` applied to the captured digits. -/
def digitsToNat (ds : List Char) : Nat :=
  ds.foldl (fun acc c => acc * 10 + (c.toNat - 48)) 0

/-- The literal searched by the regex `chose (\d+)`: the word and the following space. -/
def choseSp : List Char := "chose ".toList

/-- One attempt of the regex engine at a fixed position: succeed iff the text starts
with `chose ` followed by at least one digit, capturing the maximal digit run. -/
def choseMatchHere (s : List Char) : Option Nat :=
  if choseSp.isPrefixOf s then
    let after := s.drop choseSp.length
    let ds := after.takeWhile Char.isDigit
    if ds.isEmpty then none else some (digitsToNat ds)
  else none

/-- `re.search(r'chose (\d+)', line)`: leftmost position where the pattern matches,
returning the captured integer. -/
def searchChose : List Char → Option Nat
  | [] => none
  | c :: t =>
    match choseMatchHere (c :: t) with
    | some n => some n
    | none => searchChose t

/-- The explicit no-option phrase recognized before the regex runs. -/
def noAttackersPhrase : List Char := "chose no attackers".toList

/-- `extract_choice_from_line`: `chose no attackers` maps to choice 0; otherwise the
first integer following `chose ` is extracted; otherwise the line yields no choice. -/
def extract_choice_from_line (line : List Char) : Option Nat :=
  if hasSub noAttackersPhrase line then some 0
  else searchChose line

/-! ## TraceExtractor: `extract_choices_from_log`
(tests/snapshot_stress_test.py lines 68-95) -/

/-- The two players of the harness data model. -/
inductive Player where
  | p1
  | p2
deriving DecidableEq, Repr

/-- Turn-owner marker test for Alice (player 1): the line mentions her turn. -/
def isAliceMarker (line : List Char) : Bool :=
  hasSub ("Alice".toList ++ [apos] ++ "s turn".toList) line ||
  hasSub "Alice (active)".toList line

/-- Turn-owner marker test for Bob (player 2): the line mentions his turn. -/
def isBobMarker (line : List Char) : Bool :=
  hasSub ("Bob".toList ++ [apos] ++ "s turn".toList) line ||
  hasSub "Bob (active)".toList line

/-- A line carrying a decision announcement of one of the recognized strategies. -/
def isChoiceLine (line : List Char) : Bool :=
  hasSub ">>> RANDOM:".toList line || hasSub ">>> HEURISTIC:".toList line ||
  hasSub ">>> ZERO:".toList line

/-- Loop body state of `extract_choices_from_log`: the current turn owner and the
two per-player choice lists, threaded over the transcript lines in order. -/
def extractChoicesAux (owner : Option Player) :
    List (List Char) → List Nat × List Nat
  | [] => ([], [])
  | line :: rest =>
    let owner' :=
      if isAliceMarker line then some Player.p1
      else if isBobMarker line then some Player.p2
      else owner
    let (ps, qs) := extractChoicesAux owner' rest
    if isChoiceLine line then
      match extract_choice_from_line line with
      | some c =>
        match owner' with
        | some Player.p1 => (c :: ps, qs)
        | some Player.p2 => (ps, c :: qs)
        | none => (ps, qs)
      | none => (ps, qs)
    else (ps, qs)

/-- `extract_choices_from_log` over the already-split transcript lines: the P1 and P2
choice sequences, attributed by the most recent turn-owner marker. -/
def extract_choices_from_log (lines : List (List Char)) : List Nat × List Nat :=
  extractChoicesAux none lines

/-! ## TraceExtractor: `filter_game_actions`
(tests/snapshot_stress_test.py lines 97-145) -/

/-- Exclusion rules of `filter_game_actions`, applied to the stripped line before any
inclusion keyword is consulted: snapshot/resume notices, stopping notices, and the
`Turn number:` diagnostic printed on resume. -/
def isExcludedLine (s : List Char) : Bool :=
  hasSub "snapshot".toList (pyLower s) || hasSub "resuming".toList (pyLower s) ||
  hasSub "Stopping after".toList s || hasSub "stopping".toList (pyLower s) ||
  hasSub "Turn number:".toList s

/-- The semantic-action vocabulary of `filter_game_actions`. -/
def actionKeywords : List (List Char) :=
  ["draws ".toList, "plays ".toList, "casts ".toList, "attacks ".toList,
   "blocks ".toList, "damage ".toList, "dies".toList, "destroyed".toList,
   "sacrificed".toList, "discards".toList, "to graveyard".toList, "Turn ".toList,
   "wins!".toList, "Game Over".toList, "Life:".toList, "Turns played:".toList]

/-- Inclusion rule: the stripped line contains at least one vocabulary keyword. -/
def hasActionKeyword (s : List Char) : Bool :=
  actionKeywords.any fun k => hasSub k s

/-- Per-line classification of `filter_game_actions`: empty and excluded lines are
dropped, keyword lines are kept (stripped); everything else is noise. -/
def lineAction (line : List Char) : Option (List Char) :=
  if (pyStrip line).isEmpty then none
  else if isExcludedLine (pyStrip line) then none
  else if hasActionKeyword (pyStrip line) then some (pyStrip line)
  else none

/-- `filter_game_actions` on an already-split transcript. -/
def filterLines (lines : List (List Char)) : List (List Char) :=
  lines.filterMap lineAction

/-- `log.split('\n')`. -/
def splitLines (log : List Char) : List (List Char) :=
  log.splitOn '\n'

/-- `filter_game_actions` on a raw transcript string. -/
def filter_game_actions (log : List Char) : List (List Char) :=
  filterLines (splitLines log)

/-! ## SegmentPlanner: stop-point generation
(tests/snapshot_stress_test.py lines 248-266, inside `run_stop_and_go_game`)

`random.randint` is modelled by an oracle `draw i lo hi` giving the value drawn at
loop iteration `i` from the inclusive range `[lo, hi]`. -/

/-- The oracle behaves like `random.randint`: every draw lands in its range. -/
def ValidDraw (draw : Nat → Nat → Nat → Nat) : Prop :=
  ∀ i lo hi, lo ≤ hi → lo ≤ draw i lo hi ∧ draw i lo hi ≤ hi

/-- The stop-point loop. The fuel `k` is the number of iterations left, so the Python
`remaining = total_choices - cumulative - (actual_num_stops - i)` is
`total - cum - k` at the iteration where `k` iterations (this one included) remain,
and `remaining <= 0` is the test `total ≤ cum + k`. -/
def stopPointsLoop (total cps : Nat) (draw : Nat → Nat → Nat → Nat) :
    Nat → Nat → Nat → List Nat
  | 0, _, _ => []
  | k + 1, i, cum =>
    if total ≤ cum + (k + 1) then []
    else if 0 < draw i 1 (min (cps * 2) (total - cum - (k + 1))) then
      draw i 1 (min (cps * 2) (total - cum - (k + 1))) ::
        stopPointsLoop total cps draw k (i + 1)
          (cum + draw i 1 (min (cps * 2) (total - cum - (k + 1))))
    else
      stopPointsLoop total cps draw k (i + 1) cum

/-- `actual_num_stops = min(num_stops, max(1, total_choices - 1))`. -/
def actualNumStops (total numStops : Nat) : Nat :=
  min numStops (max 1 (total - 1))

/-- `choices_per_stop = max(1, total_choices // (actual_num_stops + 1))`. -/
def choicesPerStop (total numStops : Nat) : Nat :=
  max 1 (total / (actualNumStops total numStops + 1))

/-- Stop-point generation: clamp the stop count, compute `choices_per_stop`, run the
draw loop, and fall back to a single one-decision stop when the loop yields nothing. -/
def generate_stop_points (total numStops : Nat) (draw : Nat → Nat → Nat → Nat) :
    List Nat :=
  if (stopPointsLoop total (choicesPerStop total numStops) draw
        (actualNumStops total numStops) 0 0).isEmpty then
    [1]
  else
    stopPointsLoop total (choicesPerStop total numStops) draw
      (actualNumStops total numStops) 0 0

/-- The full SegmentPlan driven by the loop `for stop_after in stop_points + [0]`:
the generated stop points followed by the terminal run-to-completion segment. -/
def segment_plan (total numStops : Nat) (draw : Nat → Nat → Nat → Nat) : List Nat :=
  generate_stop_points total numStops draw ++ [0]

/-- A draw oracle that always answers the low end of the range. -/
def drawLo : Nat → Nat → Nat → Nat := fun _ lo _ => lo

/-! ## ResultComparator (tests/snapshot_stress_test_single.py lines 314-330,
scripts/diff_logs.py lines 31-68) -/

/-- The index loop of `compare_game_logs`: with the length check already passed, walk
both action lists in lockstep and fail at the first differing position. -/
def pairwiseEqLoop : List (List Char) → List (List Char) → Bool
  | [], _ => true
  | _, [] => true
  | x :: xs, y :: ys => x == y && pairwiseEqLoop xs ys

/-- Comparison of two filtered action lists: empty on either side fails, a length
mismatch fails, otherwise positions are compared pairwise. -/
def compare_action_lists (a b : List (List Char)) : Bool :=
  if a.isEmpty || b.isEmpty then false
  else if a.length != b.length then false
  else pairwiseEqLoop a b

/-- `compare_game_logs`: filter both raw transcripts, then compare the action lists. -/
def compare_game_logs (normalLog stopgoLog : List Char) : Bool :=
  compare_action_lists (filter_game_actions normalLog) (filter_game_actions stopgoLog)

/-! ## ExecutionDriver file handling, tests/snapshot_stress_test.py
(`run_stop_and_go_game` lines 294-343)

The external process invocations are an oracle `outcomes i` for segment `i`: whether
the process exited zero, whether it wrote the snapshot file, and whether its output
announced the end of the game. The model tracks whether the snapshot file exists. -/

/-- Observable behaviour of one segment's process invocation. -/
structure SegOutcome where
  exitZero : Bool
  wrote : Bool
  ended : Bool
deriving DecidableEq, Repr

/-- The segment loop of `run_stop_and_go_game`, returning
(loop completed normally?, snapshot file exists at return?). A resume segment with no
snapshot file returns early; a non-zero exit returns early without reaching the
cleanup; a game-end break and normal loop exit run the final unlink. -/
def runStopGoAux (outcomes : Nat → SegOutcome) :
    List Nat → Nat → Bool → Bool × Bool
  | [], _, _ => (true, false)
  | stopAfter :: rest, i, snap =>
    if 0 < i ∧ snap = false then (false, snap)
    else
      let o := outcomes i
      let snap2 := if 0 < stopAfter && o.wrote then true else snap
      if o.exitZero = false then (false, snap2)
      else if o.ended then (true, false)
      else runStopGoAux outcomes rest (i + 1) snap2

/-- One stop-and-go run over a plan, starting with no snapshot file on disk. -/
def run_stop_and_go (outcomes : Nat → SegOutcome) (plan : List Nat) : Bool × Bool :=
  runStopGoAux outcomes plan 0 false

/-- Segment outcomes where the first segment succeeds and writes a snapshot and the
second exits non-zero. -/
def outcomesSegTwoFails : Nat → SegOutcome := fun i =>
  if i == 0 then ⟨true, true, false⟩ else ⟨false, false, false⟩

/-- Segment outcomes where every invocation succeeds without ending the game. -/
def outcomesAllOk : Nat → SegOutcome := fun _ => ⟨true, true, false⟩

/-- scripts/snapshot_stress_test_single.py `run_test_for_deck` (lines 381-499): the
per-trial working directory is created, the body produces whatever verdict it likes,
and the `finally` block removes the directory before the function returns. The result
is (verdict, does the working directory still exist?). -/
def run_test_for_deck_cleanup (body : Bool → Bool) : Bool × Bool :=
  let workDirExists := true
  (body workDirExists, false)

/-! ## Snapshot path selection
(tests/snapshot_stress_test.py lines 222-224,
scripts/snapshot_stress_test_single.py lines 188-196) -/

/-- The snapshot path used by tests/snapshot_stress_test.py for a given trial:
the fixed literal `/tmp/test_snapshot.json`, whatever the trial. -/
def tests_snapshot_path (_trial : Nat) : List Char :=
  "/tmp/test_snapshot.json".toList

/-- The snapshot path used by scripts/snapshot_stress_test_single.py: inside the
per-trial working directory when one was created, else a freshly drawn temp path. -/
def single_snapshot_path (workDir : Option (List Char)) (freshTemp : List Char) :
    List Char :=
  match workDir with
  | some d => d ++ "/snapshot.json".toList
  | none => freshTemp

/-! ## StateCanonicalizer: `strip_metadata`
(scripts/test_snapshot_determinism.py lines 69-99)

A JSON capture is a nested value; objects keep their key order (Python dicts preserve
insertion order and `strip_metadata` rebuilds them in iteration order). -/

mutual

/-- A JSON value as loaded by `json.load`: the state captures the harness compares. -/
inductive JValue where
  | jnull : JValue
  | jbool : Bool → JValue
  | jnum : Int → JValue
  | jstr : List Char → JValue
  | jarr : JArr → JValue
  | jobj : JObj → JValue

/-- A JSON array. -/
inductive JArr where
  | anil : JArr
  | acons : JValue → JArr → JArr

/-- A JSON object: ordered key/value fields. -/
inductive JObj where
  | onil : JObj
  | ocons : List Char → JValue → JObj → JObj

end

/-- The denylist of incidental field names stripped at every nesting depth. -/
def denyKeys : List (List Char) :=
  ["choice_id".toList, "undo_log".toList, "intra_turn_choices".toList,
   "logger".toList, "show_choice_menu".toList, "output_mode".toList,
   "output_format".toList, "numeric_choices".toList, "step_header_printed".toList,
   "p1_controller_state".toList, "p2_controller_state".toList,
   "lands_played_this_turn".toList]

/-- The `key in (...)` membership test of `strip_metadata`. -/
def isDenyKey (k : List Char) : Bool :=
  denyKeys.any fun d => d == k

mutual

/-- `strip_metadata`: recursively delete denylisted keys at any nesting depth,
leaving everything else (including order) untouched. -/
def strip_metadata : JValue → JValue
  | .jarr xs => .jarr (stripArr xs)
  | .jobj fs => .jobj (stripObj fs)
  | v => v

/-- `strip_metadata` mapped over an array. -/
def stripArr : JArr → JArr
  | .anil => .anil
  | .acons v rest => .acons (strip_metadata v) (stripArr rest)

/-- `strip_metadata` over the fields of an object: denylisted keys are dropped,
the others keep their place with a recursively stripped value. -/
def stripObj : JObj → JObj
  | .onil => .onil
  | .ocons k v rest =>
    if isDenyKey k then stripObj rest
    else .ocons k (strip_metadata v) (stripObj rest)

end

mutual

/-- Two captures differ only in denylisted fields: identical scalars, pointwise
related arrays, and objects whose non-denylisted fields agree in order, key and
(recursively) value, while denylisted fields may appear anywhere with any value. -/
inductive EqModDeny : JValue → JValue → Prop where
  | jnull : EqModDeny .jnull .jnull
  | jbool (b : Bool) : EqModDeny (.jbool b) (.jbool b)
  | jnum (n : Int) : EqModDeny (.jnum n) (.jnum n)
  | jstr (s : List Char) : EqModDeny (.jstr s) (.jstr s)
  | jarr {xs ys : JArr} : EqModDenyArr xs ys → EqModDeny (.jarr xs) (.jarr ys)
  | jobj {fs gs : JObj} : EqModDenyObj fs gs → EqModDeny (.jobj fs) (.jobj gs)

/-- Pointwise `EqModDeny` on arrays. -/
inductive EqModDenyArr : JArr → JArr → Prop where
  | anil : EqModDenyArr .anil .anil
  | acons {v w : JValue} {xs ys : JArr} :
      EqModDeny v w → EqModDenyArr xs ys → EqModDenyArr (.acons v xs) (.acons w ys)

/-- `EqModDeny` on object fields: denylisted fields may be skipped on either side. -/
inductive EqModDenyObj : JObj → JObj → Prop where
  | onil : EqModDenyObj .onil .onil
  | skipL {k : List Char} {v : JValue} {rest gs : JObj} :
      isDenyKey k = true → EqModDenyObj rest gs →
      EqModDenyObj (.ocons k v rest) gs
  | skipR {fs : JObj} {k : List Char} {w : JValue} {rest : JObj} :
      isDenyKey k = true → EqModDenyObj fs rest →
      EqModDenyObj fs (.ocons k w rest)
  | ocons {k : List Char} {v w : JValue} {rest rest2 : JObj} :
      isDenyKey k = false → EqModDeny v w → EqModDenyObj rest rest2 →
      EqModDenyObj (.ocons k v rest) (.ocons k w rest2)

end

/-- A sample capture: a denylisted counter next to a semantic field. -/
def captureA : JValue :=
  .jobj (.ocons "choice_id".toList (.jnum 5)
    (.ocons "life".toList (.jnum 20) .onil))

/-- The same semantic content as `captureA` with a different denylisted counter. -/
def captureB : JValue :=
  .jobj (.ocons "choice_id".toList (.jnum 99)
    (.ocons "life".toList (.jnum 20) .onil))

/-! ## ExecutionDriver / TestRunner, segmented vs. continuous execution

Modelled from the spec: the simulation engine binary (the repository's Rust `mtg`
executable, not part of the Python sources verified here) is, per sections 4.4 and 6
of the design, a deterministic machine: a fixed seed and controller assignment give a
deterministic step per decision, each decision emits transcript lines, and
suspend/resume through a SnapshotHandle restores the exact machine state including
strategy and RNG cursors. `notices i` are the transcript lines added around the
`i`-th suspend/resume boundary (snapshot, stopping and resume messages). -/

/-- Modelled from the spec: run the engine continuously for `n` decisions from state
`s`, returning the final state and the emitted transcript lines in order. -/
def contRun {σ : Type} (step : σ → σ) (emit : σ → List (List Char)) :
    σ → Nat → σ × List (List Char)
  | s, 0 => (s, [])
  | s, n + 1 =>
    let r := contRun step emit (step s) n
    (r.1, emit s ++ r.2)

/-- Modelled from the spec: run the engine across a SegmentPlan whose non-terminal
lengths are `plan`, with `remaining` decisions left in the trace; each boundary
suspends to a snapshot and resumes from it (restoring the exact state), interleaving
the boundary notice lines; the terminal segment runs the remaining decisions. -/
def segRun {σ : Type} (step : σ → σ) (emit : σ → List (List Char))
    (notices : Nat → List (List Char)) :
    σ → Nat → Nat → List Nat → σ × List (List Char)
  | s, remaining, _, [] => contRun step emit s remaining
  | s, remaining, i, len :: rest =>
    let r1 := contRun step emit s len
    let r2 := segRun step emit notices r1.1 (remaining - len) (i + 1) rest
    (r2.1, (r1.2 ++ notices i) ++ r2.2)

/-- A tiny concrete engine used to exercise the segmentation model: its state is a
decision counter and every decision emits one semantic action line. -/
def emitW : Nat → List (List Char) := fun _ => ["Alice draws a card".toList]

/-- Concrete boundary notices: a snapshot message at every suspend/resume point. -/
def noticesW : Nat → List (List Char) := fun _ => ["Saving snapshot".toList]

/-- A concrete capture function for the tiny engine: the state as a JSON number. -/
def capW : Nat → JValue := fun n => .jnum (n : Int)

example : extract_choice_from_line ">>> RANDOM: chose 3 (ability 2)".toList = some 3 := by
  decide

example : extract_choice_from_line ">>> HEURISTIC: chose no attackers".toList = some 0 := by
  decide

example : extract_choice_from_line ">>> RANDOM: passing priority".toList = none := by
  decide

example :
    filter_game_actions "Alice draws a card\n  Saving snapshot now\n\nBob plays Forest".toList =
      ["Alice draws a card".toList, "Bob plays Forest".toList] := by
  decide

/-! ## Helper lemmas -/

theorem pairwiseEqLoop_eq_true {a b : List (List Char)} (h : a.length = b.length) :
    pairwiseEqLoop a b = true ↔ a = b := by
  induction a generalizing b with
  | nil =>
    cases b with
    | nil => simp [pairwiseEqLoop]
    | cons y ys => simp at h
  | cons x xs ih =>
    cases b with
    | nil => simp at h
    | cons y ys =>
      simp only [List.length_cons, Nat.succ.injEq] at h
      simp [pairwiseEqLoop, Bool.and_eq_true, beq_iff_eq, ih h, List.cons.injEq]

theorem compare_action_lists_iff (a b : List (List Char)) :
    compare_action_lists a b = true ↔ a ≠ [] ∧ b ≠ [] ∧ a = b := by
  unfold compare_action_lists
  by_cases ha : a = []
  · simp [ha]
  by_cases hb : b = []
  · simp [hb]
  have ha' : a.isEmpty = false := by simpa [List.isEmpty_iff] using ha
  have hb' : b.isEmpty = false := by simpa [List.isEmpty_iff] using hb
  rw [ha', hb']
  by_cases hlen : a.length = b.length
  · have h1 : (a.length != b.length) = false := by simp [bne, hlen]
    rw [h1]
    simp [pairwiseEqLoop_eq_true hlen, ha, hb]
  · have h1 : (a.length != b.length) = true := by simp [bne, hlen]
    rw [h1]
    simp only [Bool.or_self, Bool.false_eq_true, if_false, if_true, false_iff,
      not_and, ne_eq]
    intro _ _ hab
    exact hlen (congrArg List.length hab)

theorem lineAction_eq_some {line s : List Char} (h : lineAction line = some s) :
    s = pyStrip line ∧ isExcludedLine s = false ∧ hasActionKeyword s = true := by
  unfold lineAction at h
  by_cases h1 : (pyStrip line).isEmpty = true
  · rw [if_pos h1] at h; exact Option.noConfusion h
  · rw [if_neg h1] at h
    by_cases h2 : isExcludedLine (pyStrip line) = true
    · rw [if_pos h2] at h; exact Option.noConfusion h
    · rw [if_neg h2] at h
      by_cases h3 : hasActionKeyword (pyStrip line) = true
      · rw [if_pos h3] at h
        have hs : s = pyStrip line := (Option.some.inj h).symm
        subst hs
        exact ⟨rfl, Bool.eq_false_iff.mpr h2, h3⟩
      · rw [if_neg h3] at h; exact Option.noConfusion h

theorem extractChoicesAux_none_cons (l : List Char) (rest : List (List Char))
    (hA : isAliceMarker l = false) (hB : isBobMarker l = false) :
    extractChoicesAux none (l :: rest) = extractChoicesAux none rest := by
  conv_lhs => rw [extractChoicesAux]
  simp only [hA, hB, Bool.false_eq_true, if_false]
  cases hE : extractChoicesAux none rest with
  | mk ps qs =>
    cases hC : isChoiceLine l
    · simp [hE, hC]
    · cases hX : extract_choice_from_line l <;> simp [hE, hC, hX]

/-! ## Claim C4: the action-log comparator -/

/-- C4: the action-log comparator returns True exactly when both filtered action
sequences are non-empty and equal (same length, pairwise equal at every position);
an empty filtered sequence on either side yields False, never vacuous success. -/
theorem compare_game_logs_iff (normalLog stopgoLog : List Char) :
    compare_game_logs normalLog stopgoLog = true ↔
      filter_game_actions normalLog ≠ [] ∧ filter_game_actions stopgoLog ≠ [] ∧
      filter_game_actions normalLog = filter_game_actions stopgoLog :=
  compare_action_lists_iff _ _

/-! ## Claim C6: exclusion rules run before inclusion rules -/

/-- C6: any line matching an exclusion pattern (snapshot, resume, stopping, or the
`Turn number:` diagnostic) never appears in the filtered action sequence of any
transcript, even when it also contains a semantic-action keyword: the exclusion
tests run before the keyword test. -/
theorem excluded_line_not_in_filter (log s : List Char)
    (hex : isExcludedLine s = true) : s ∉ filter_game_actions log := by
  intro hmem
  unfold filter_game_actions filterLines at hmem
  rw [List.mem_filterMap] at hmem
  obtain ⟨line, _, hline⟩ := hmem
  have := (lineAction_eq_some hline).2.1
  rw [hex] at this
  exact Bool.noConfusion this

/-- Witness for C6: a concrete snapshot notice that contains the vocabulary keyword
`draws ` is still excluded from the filtered actions of a transcript containing it. -/
theorem excluded_line_not_in_filter_witness :
    isExcludedLine "Snapshot saved: Alice draws next".toList = true ∧
      "Snapshot saved: Alice draws next".toList ∉
        filter_game_actions
          "Alice draws a card\nSnapshot saved: Alice draws next\nBob plays Forest".toList :=
  ⟨by decide,
   excluded_line_not_in_filter
     "Alice draws a card\nSnapshot saved: Alice draws next\nBob plays Forest".toList
     "Snapshot saved: Alice draws next".toList (by decide)⟩

/-! ## Claim C10: decisions before the first turn-owner marker are dropped -/

/-- C10: a transcript prefix containing no turn-owner marker contributes nothing to
either player's extracted choice list — any decision line in it is silently dropped
rather than attributed to a default owner. -/
theorem premarker_choices_dropped (pre rest : List (List Char))
    (h : ∀ l ∈ pre, isAliceMarker l = false ∧ isBobMarker l = false) :
    extract_choices_from_log (pre ++ rest) = extract_choices_from_log rest := by
  induction pre with
  | nil => rfl
  | cons l pre ih =>
    have hl := h l (by simp)
    have hrest := ih fun x hx => h x (by simp [hx])
    calc extract_choices_from_log ((l :: pre) ++ rest)
        = extractChoicesAux none (l :: (pre ++ rest)) := rfl
      _ = extractChoicesAux none (pre ++ rest) :=
          extractChoicesAux_none_cons _ _ hl.1 hl.2
      _ = extract_choices_from_log rest := hrest

/-- Witness for C10: a recognized decision line before any marker is dropped; the
same transcript without that prefix yields the same per-player choice lists. -/
theorem premarker_choices_dropped_witness :
    (∀ l ∈ [">>> RANDOM: chose 7".toList],
        isAliceMarker l = false ∧ isBobMarker l = false) ∧
      extract_choices_from_log
          ([">>> RANDOM: chose 7".toList] ++
            ["Alice (active)".toList, ">>> RANDOM: chose 2".toList]) =
        extract_choices_from_log
          ["Alice (active)".toList, ">>> RANDOM: chose 2".toList] :=
  ⟨by decide,
   premarker_choices_dropped [">>> RANDOM: chose 7".toList]
     ["Alice (active)".toList, ">>> RANDOM: chose 2".toList] (by decide)⟩

/-! ## Claim C8: cleanup on exit paths of a segmented run -/

/-- C8 counterexample: with a first segment that succeeds and writes the snapshot
and a second segment that exits non-zero, `run_stop_and_go_game` of
tests/snapshot_stress_test.py returns early on the driver failure (first component
`false`) with the snapshot file still on disk (second component `true`): the
temporary snapshot is not deleted on that exit path. -/
theorem stop_and_go_cleanup_cex :
    run_stop_and_go outcomesSegTwoFails [1, 1, 0] = (false, true) := by decide

/-- C8 amended: when the segment loop completes normally (all segments succeed, or
the transcript announces game end and the loop breaks), the snapshot file is deleted
before returning; and the single-deck script variant removes its per-trial working
directory on every exit path via its `finally` block. Only the early driver-failure
returns of the tests variant skip cleanup. -/
theorem stop_and_go_cleanup :
    (∀ outcomes plan i snap, (runStopGoAux outcomes plan i snap).1 = true →
        (runStopGoAux outcomes plan i snap).2 = false) ∧
    ∀ body : Bool → Bool, (run_test_for_deck_cleanup body).2 = false := by
  constructor
  · intro outcomes plan
    induction plan with
    | nil => intro i snap _; rfl
    | cons stopAfter rest ih =>
      intro i snap h
      unfold runStopGoAux at h ⊢
      by_cases h1 : 0 < i ∧ snap = false
      · rw [if_pos h1] at h; exact Bool.noConfusion h
      · rw [if_neg h1] at h ⊢
        by_cases h2 : (outcomes i).exitZero = false
        · rw [if_pos h2] at h; exact Bool.noConfusion h
        · rw [if_neg h2] at h ⊢
          by_cases h3 : (outcomes i).ended = true
          · rw [if_pos h3]
          · rw [if_neg h3] at h ⊢
            exact ih _ _ h
  · intro _; rfl

/-- Witness for C8 amended: a run whose segments all succeed completes normally and
leaves no snapshot file behind. -/
theorem stop_and_go_cleanup_witness :
    (runStopGoAux outcomesAllOk [1, 0] 0 false).1 = true ∧
      (runStopGoAux outcomesAllOk [1, 0] 0 false).2 = false :=
  ⟨by decide, stop_and_go_cleanup.1 outcomesAllOk [1, 0] 0 false (by decide)⟩

/-! ## Claim C9: snapshot paths and trial isolation -/

/-- C9 counterexample: tests/snapshot_stress_test.py gives every trial the same
fixed well-known snapshot path `/tmp/test_snapshot.json` — two distinct trials
share it, contradicting per-trial uniqueness. -/
theorem fixed_snapshot_path_shared :
    tests_snapshot_path 0 = tests_snapshot_path 1 ∧
      tests_snapshot_path 0 = "/tmp/test_snapshot.json".toList :=
  ⟨rfl, rfl⟩

/-- C9 amended: the single-deck script writes the snapshot inside the per-trial
working directory, so distinct working directories give distinct snapshot paths;
the tests/ batch variant instead uses the fixed shared path. -/
theorem single_snapshot_path_isolated (d1 d2 f1 f2 : List Char) (h : d1 ≠ d2) :
    single_snapshot_path (some d1) f1 ≠ single_snapshot_path (some d2) f2 := by
  simp only [single_snapshot_path]
  intro heq
  exact h (List.append_left_injective _ heq)

/-- Witness for C9 amended: two concrete distinct work directories give distinct
snapshot paths. -/
theorem single_snapshot_path_isolated_witness :
    single_snapshot_path (some "/tmp/mtg_test_a".toList) "x".toList ≠
      single_snapshot_path (some "/tmp/mtg_test_b".toList) "y".toList :=
  single_snapshot_path_isolated _ _ _ _ (by decide)

/-! ## SegmentPlanner lemmas -/

theorem drawLo_valid : ValidDraw drawLo := fun _ _ _ h => ⟨Nat.le_refl _, h⟩

theorem stopPointsLoop_pos (total cps : Nat) (draw : Nat → Nat → Nat → Nat) :
    ∀ k i cum x, x ∈ stopPointsLoop total cps draw k i cum → 1 ≤ x := by
  intro k
  induction k with
  | zero => intro i cum x hx; simp [stopPointsLoop] at hx
  | succ k ih =>
    intro i cum x hx
    rw [stopPointsLoop] at hx
    by_cases h : total ≤ cum + (k + 1)
    · rw [if_pos h] at hx; simp at hx
    · rw [if_neg h] at hx
      by_cases ha : 0 < draw i 1 (min (cps * 2) (total - cum - (k + 1)))
      · rw [if_pos ha] at hx
        rcases List.mem_cons.mp hx with h1 | h2
        · exact h1 ▸ ha
        · exact ih _ _ _ h2
      · rw [if_neg ha] at hx
        exact ih _ _ _ hx

theorem stopPointsLoop_sum (total cps : Nat) (draw : Nat → Nat → Nat → Nat)
    (hdraw : ValidDraw draw) (hcps : 1 ≤ cps) :
    ∀ k i cum, cum + (stopPointsLoop total cps draw k i cum).sum ≤
      max cum (total - 1) := by
  intro k
  induction k with
  | zero => intro i cum; simp [stopPointsLoop, Nat.le_max_left]
  | succ k ih =>
    intro i cum
    rw [stopPointsLoop]
    by_cases h : total ≤ cum + (k + 1)
    · rw [if_pos h]; simp [Nat.le_max_left]
    · rw [if_neg h]
      have hrange : 1 ≤ min (cps * 2) (total - cum - (k + 1)) :=
        le_min (by omega) (by omega)
      obtain ⟨hlo, hhi⟩ := hdraw i 1 _ hrange
      have hpos : 0 < draw i 1 (min (cps * 2) (total - cum - (k + 1))) := hlo
      rw [if_pos hpos]
      rw [List.sum_cons]
      have hub : draw i 1 (min (cps * 2) (total - cum - (k + 1))) ≤
          total - cum - (k + 1) :=
        le_trans hhi (Nat.min_le_right _ _)
      have hca : cum + draw i 1 (min (cps * 2) (total - cum - (k + 1))) ≤
          total - 1 := by omega
      have key := ih (i + 1) (cum + draw i 1 (min (cps * 2) (total - cum - (k + 1))))
      rw [Nat.max_eq_right hca] at key
      have : cum + (draw i 1 (min (cps * 2) (total - cum - (k + 1))) +
          (stopPointsLoop total cps draw k (i + 1)
            (cum + draw i 1 (min (cps * 2) (total - cum - (k + 1))))).sum) ≤
          total - 1 := by omega
      exact le_trans this (Nat.le_max_right _ _)

theorem generate_stop_points_pos (total numStops : Nat)
    (draw : Nat → Nat → Nat → Nat) :
    ∀ x ∈ generate_stop_points total numStops draw, 1 ≤ x := by
  intro x hx
  unfold generate_stop_points at hx
  by_cases hsp : (stopPointsLoop total (choicesPerStop total numStops) draw
      (actualNumStops total numStops) 0 0).isEmpty = true
  · rw [if_pos hsp] at hx
    simp at hx
    omega
  · rw [if_neg hsp] at hx
    exact stopPointsLoop_pos _ _ _ _ _ _ _ hx

theorem generate_stop_points_sum (total numStops : Nat)
    (draw : Nat → Nat → Nat → Nat) (htotal : 1 ≤ total) (hdraw : ValidDraw draw) :
    (generate_stop_points total numStops draw).sum ≤ total ∧
      (2 ≤ total → (generate_stop_points total numStops draw).sum < total) := by
  unfold generate_stop_points
  by_cases hsp : (stopPointsLoop total (choicesPerStop total numStops) draw
      (actualNumStops total numStops) 0 0).isEmpty = true
  · rw [if_pos hsp]
    simp
    omega
  · rw [if_neg hsp]
    have hcps : 1 ≤ choicesPerStop total numStops := Nat.le_max_left 1 _
    have key := stopPointsLoop_sum total (choicesPerStop total numStops) draw
      hdraw hcps (actualNumStops total numStops) 0 0
    rw [Nat.zero_add, Nat.max_eq_right (Nat.zero_le _)] at key
    omega

/-! ## Claim C2: plan validity -/

/-- C2: for every total decision count ≥ 1 and requested stop count ≥ 1, the
generated SegmentPlan has non-terminal segment lengths that are each ≥ 1 (so the
cumulative stop boundaries are strictly increasing), sum to at most the total
decision count, and the plan ends with exactly one terminal segment of length 0. -/
theorem segment_plan_valid (total numStops : Nat) (draw : Nat → Nat → Nat → Nat)
    (htotal : 1 ≤ total) (_hstops : 1 ≤ numStops) (hdraw : ValidDraw draw) :
    (∀ x ∈ (segment_plan total numStops draw).dropLast, 1 ≤ x) ∧
      (segment_plan total numStops draw).dropLast.sum ≤ total ∧
      (segment_plan total numStops draw).getLast? = some 0 ∧
      (segment_plan total numStops draw).count 0 = 1 := by
  have hdrop : (segment_plan total numStops draw).dropLast =
      generate_stop_points total numStops draw := by
    simp [segment_plan]
  have hpos := generate_stop_points_pos total numStops draw
  refine ⟨?_, ?_, ?_, ?_⟩
  · rw [hdrop]; exact hpos
  · rw [hdrop]
    exact (generate_stop_points_sum total numStops draw htotal hdraw).1
  · simp [segment_plan]
  · unfold segment_plan
    rw [List.count_append]
    have hzero : (generate_stop_points total numStops draw).count 0 = 0 :=
      List.count_eq_zero.mpr fun h => by have := hpos 0 h; omega
    simp [hzero]

/-- Witness for C2 at the spec's concrete scenario (12 decisions, 5 stops, a draw
oracle answering the low end of every range). -/
theorem segment_plan_valid_witness :
    (segment_plan 12 5 drawLo).dropLast.sum ≤ 12 ∧
      (segment_plan 12 5 drawLo).getLast? = some 0 ∧
      (segment_plan 12 5 drawLo).count 0 = 1 :=
  ⟨(segment_plan_valid 12 5 drawLo (by decide) (by decide) drawLo_valid).2.1,
   (segment_plan_valid 12 5 drawLo (by decide) (by decide) drawLo_valid).2.2.1,
   (segment_plan_valid 12 5 drawLo (by decide) (by decide) drawLo_valid).2.2.2⟩

/-! ## Claim C3: the non-terminal lengths sum strictly below the total -/

/-- C3 counterexample: at total decision count 1 (with any requested stop count, here
5), the draw loop exits immediately and the fallback single one-decision segment
makes the non-terminal lengths sum to exactly 1 — not strictly less than the total
decision count 1 as the claim demands. -/
theorem segment_plan_sum_cex :
    ¬ (segment_plan 1 5 drawLo).dropLast.sum < 1 := by decide

/-- C3 amended: for every total decision count ≥ 2 and every requested stop count,
the non-terminal segment lengths sum to strictly less than the total decision count;
at total decision count 1 the degenerate fallback plan's single one-decision segment
makes the sum equal to (not less than) the total. -/
theorem segment_plan_sum_lt (total numStops : Nat) (draw : Nat → Nat → Nat → Nat)
    (htotal : 2 ≤ total) (hdraw : ValidDraw draw) :
    (segment_plan total numStops draw).dropLast.sum < total := by
  have hdrop : (segment_plan total numStops draw).dropLast =
      generate_stop_points total numStops draw := by
    simp [segment_plan]
  rw [hdrop]
  exact (generate_stop_points_sum total numStops draw (by omega) hdraw).2 htotal

/-- Witness for C3 amended at a concrete plan (12 decisions, 7 stops). -/
theorem segment_plan_sum_lt_witness :
    (segment_plan 12 7 drawLo).dropLast.sum < 12 :=
  segment_plan_sum_lt 12 7 drawLo (by decide) drawLo_valid

/-! ## Lemmas on `chose (\d+)` extraction -/

theorem dropWhile_head_not {p : Char → Bool} :
    ∀ (l : List Char) (d : Char) (rest : List Char),
      l.dropWhile p = d :: rest → p d = false := by
  intro l
  induction l with
  | nil => intro d rest h; simp [List.dropWhile] at h
  | cons c t ih =>
    intro d rest h
    by_cases hc : p c = true
    · simp only [List.dropWhile_cons, hc, if_true] at h
      exact ih d rest h
    · have hc' : p c = false := Bool.eq_false_iff.mpr hc
      simp [List.dropWhile_cons, hc'] at h
      obtain ⟨h1, -⟩ := h
      rw [← h1]
      exact hc'

theorem choseMatchHere_some {s : List Char} {n : Nat} (h : choseMatchHere s = some n) :
    ∃ ds post, s = choseSp ++ ds ++ post ∧ ds ≠ [] ∧ ds.all Char.isDigit = true ∧
      (∀ d post2, post = d :: post2 → Char.isDigit d = false) ∧
      digitsToNat ds = n := by
  by_cases hp : choseSp.isPrefixOf s = true
  · simp only [choseMatchHere, hp, if_true] at h
    obtain ⟨t, ht⟩ := List.isPrefixOf_iff_prefix.mp hp
    by_cases he : ((s.drop choseSp.length).takeWhile Char.isDigit).isEmpty = true
    · rw [if_pos he] at h
      exact Option.noConfusion h
    · rw [if_neg he] at h
      refine ⟨(s.drop choseSp.length).takeWhile Char.isDigit,
        (s.drop choseSp.length).dropWhile Char.isDigit, ?_, ?_, ?_, ?_,
        Option.some.inj h⟩
      · rw [List.append_assoc, List.takeWhile_append_dropWhile]
        conv_lhs => rw [← ht]
        rw [← ht, List.drop_left]
      · simpa [List.isEmpty_iff] using he
      · rw [List.all_eq_true]
        intro x hx
        exact List.mem_takeWhile_imp hx
      · intro d post2 hpost
        exact dropWhile_head_not _ d post2 hpost
  · simp only [choseMatchHere] at h
    rw [if_neg hp] at h
    exact Option.noConfusion h

theorem searchChose_eq_of_matchHere {l : List Char} {m : Nat}
    (hm : choseMatchHere l = some m) : searchChose l = some m := by
  cases l with
  | nil =>
    have : choseSp.isPrefixOf ([] : List Char) = false := by decide
    simp [choseMatchHere, this] at hm
  | cons c t => simp only [searchChose, hm]

theorem choseMatchHere_append_digit (d : Char) (post : List Char)
    (hd : Char.isDigit d = true) :
    choseMatchHere (choseSp ++ d :: post) =
      some (digitsToNat ((d :: post).takeWhile Char.isDigit)) := by
  have hpre : choseSp.isPrefixOf (choseSp ++ d :: post) = true :=
    List.isPrefixOf_iff_prefix.mpr ⟨d :: post, rfl⟩
  have hdrop : (choseSp ++ d :: post).drop choseSp.length = d :: post :=
    List.drop_left _ _
  have htake : (d :: post).takeWhile Char.isDigit =
      d :: post.takeWhile Char.isDigit := by
    simp [List.takeWhile_cons, hd]
  simp only [choseMatchHere, hpre, if_true, hdrop, htake, List.isEmpty_cons,
    Bool.false_eq_true, if_false]

theorem searchChose_some {line : List Char} {n : Nat}
    (h : searchChose line = some n) :
    ∃ pre ds post, line = pre ++ choseSp ++ ds ++ post ∧ ds ≠ [] ∧
      ds.all Char.isDigit = true ∧
      (∀ d post2, post = d :: post2 → Char.isDigit d = false) ∧
      (∀ pre2 d post2, line = pre2 ++ choseSp ++ d :: post2 →
        Char.isDigit d = true → pre.length ≤ pre2.length) ∧
      digitsToNat ds = n := by
  induction line with
  | nil => simp [searchChose] at h
  | cons c t ih =>
    cases hm : choseMatchHere (c :: t) with
    | some m =>
      simp only [searchChose, hm] at h
      obtain ⟨ds, post, h1, h2, h3, h4, h5⟩ := choseMatchHere_some hm
      refine ⟨[], ds, post, by simpa using h1, h2, h3, h4, ?_,
        by rw [h5]; exact Option.some.inj h⟩
      intro pre2 d post2 _ _
      exact Nat.zero_le _
    | none =>
      simp only [searchChose, hm] at h
      obtain ⟨pre, ds, post, h1, h2, h3, h4, h5, h6⟩ := ih h
      refine ⟨c :: pre, ds, post, by simp [h1], h2, h3, h4, ?_, h6⟩
      intro pre2 d post2 hline hd
      cases pre2 with
      | nil =>
        exfalso
        simp only [List.nil_append] at hline
        rw [hline] at hm
        rw [choseMatchHere_append_digit d post2 hd] at hm
        exact Option.noConfusion hm
      | cons c2 pre2a =>
        simp only [List.cons_append, List.cons.injEq] at hline
        have := h5 pre2a d post2 hline.2 hd
        simp only [List.length_cons]
        omega

theorem searchChose_none (pre : List Char) :
    ∀ (line : List Char), searchChose line = none →
      ∀ d post, line = pre ++ choseSp ++ d :: post → Char.isDigit d = false := by
  induction pre with
  | nil =>
    intro line h d post hline
    by_contra hd
    have hd' : Char.isDigit d = true := by
      revert hd; cases Char.isDigit d <;> simp
    have hm := choseMatchHere_append_digit d post hd'
    have hs := searchChose_eq_of_matchHere hm
    rw [hline] at h
    simp only [List.nil_append] at h
    rw [hs] at h
    exact Option.noConfusion h
  | cons c pre ih =>
    intro line h d post hline
    subst hline
    simp only [List.cons_append] at h
    cases hm : choseMatchHere (c :: ((pre ++ choseSp) ++ d :: post)) with
    | some m =>
      simp only [searchChose, hm] at h
      exact Option.noConfusion h
    | none =>
      simp only [searchChose, hm] at h
      exact ih _ h d post rfl

/-! ## Claim C5: decision-option extraction -/

/-- C5: on a line containing the explicit no-option phrase the extractor returns
option 0; otherwise when it returns an option `n`, the line decomposes around an
occurrence of `chose ` followed by a non-empty maximal digit run of decimal value
`n` (the next character, if any, is not a digit), and that occurrence is the first:
every occurrence of `chose ` immediately followed by a digit starts no earlier;
when it returns no option the line contains no occurrence of `chose ` followed by a
digit; every extracted option is ≥ 0. -/
theorem extract_choice_spec (line : List Char) :
    (hasSub noAttackersPhrase line = true → extract_choice_from_line line = some 0) ∧
    (hasSub noAttackersPhrase line = false →
      (∀ n, extract_choice_from_line line = some n →
        ∃ pre ds post, line = pre ++ choseSp ++ ds ++ post ∧ ds ≠ [] ∧
          ds.all Char.isDigit = true ∧
          (∀ d post2, post = d :: post2 → Char.isDigit d = false) ∧
          (∀ pre2 d post2, line = pre2 ++ choseSp ++ d :: post2 →
            Char.isDigit d = true → pre.length ≤ pre2.length) ∧
          digitsToNat ds = n) ∧
      (extract_choice_from_line line = none →
        ∀ pre d post, line = pre ++ choseSp ++ d :: post → Char.isDigit d = false)) ∧
    (∀ n, extract_choice_from_line line = some n → 0 ≤ (n : Int)) := by
  refine ⟨?_, ?_, ?_⟩
  · intro h
    simp [extract_choice_from_line, h]
  · intro h
    have he : extract_choice_from_line line = searchChose line := by
      simp [extract_choice_from_line, h]
    rw [he]
    exact ⟨fun _ hn => searchChose_some hn,
      fun hn pre d post hl => searchChose_none pre line hn d post hl⟩
  · intro n _
    exact Int.natCast_nonneg n

/-- Witness for C5: the no-attackers phrase yields option 0 on a concrete line; a
concrete `chose 12` line yields a (non-negative) option. -/
theorem extract_choice_spec_witness :
    extract_choice_from_line ">>> HEURISTIC: chose no attackers".toList = some 0 ∧
      0 ≤ ((12 : Nat) : Int) :=
  ⟨(extract_choice_spec ">>> HEURISTIC: chose no attackers".toList).1 (by decide),
   (extract_choice_spec ">>> RANDOM: chose 12 (ability 4)".toList).2.2 12 (by decide)⟩

/-! ## StateCanonicalizer lemmas -/

mutual

theorem strip_metadata_idem : ∀ v : JValue,
    strip_metadata (strip_metadata v) = strip_metadata v
  | .jnull => rfl
  | .jbool _ => rfl
  | .jnum _ => rfl
  | .jstr _ => rfl
  | .jarr xs => by rw [strip_metadata, strip_metadata, stripArr_idem xs]
  | .jobj fs => by rw [strip_metadata, strip_metadata, stripObj_idem fs]

theorem stripArr_idem : ∀ xs : JArr, stripArr (stripArr xs) = stripArr xs
  | .anil => rfl
  | .acons v rest => by
    rw [stripArr, stripArr, strip_metadata_idem v, stripArr_idem rest]

theorem stripObj_idem : ∀ fs : JObj, stripObj (stripObj fs) = stripObj fs
  | .onil => rfl
  | .ocons k v rest => by
    by_cases h : isDenyKey k = true
    · rw [stripObj, if_pos h, stripObj_idem rest]
    · rw [stripObj, if_neg h, stripObj, if_neg h, strip_metadata_idem v,
        stripObj_idem rest]

end

mutual

theorem eqModDeny_strip : ∀ {v w : JValue}, EqModDeny v w →
    strip_metadata v = strip_metadata w
  | _, _, .jnull => rfl
  | _, _, .jbool _ => rfl
  | _, _, .jnum _ => rfl
  | _, _, .jstr _ => rfl
  | _, _, .jarr h => by rw [strip_metadata, strip_metadata, eqModDenyArr_strip h]
  | _, _, .jobj h => by rw [strip_metadata, strip_metadata, eqModDenyObj_strip h]

theorem eqModDenyArr_strip : ∀ {xs ys : JArr}, EqModDenyArr xs ys →
    stripArr xs = stripArr ys
  | _, _, .anil => rfl
  | _, _, .acons hv hs => by
    rw [stripArr, stripArr, eqModDeny_strip hv, eqModDenyArr_strip hs]

theorem eqModDenyObj_strip : ∀ {fs gs : JObj}, EqModDenyObj fs gs →
    stripObj fs = stripObj gs
  | _, _, .onil => rfl
  | _, _, .skipL hk h => by rw [stripObj, if_pos hk, eqModDenyObj_strip h]
  | _, _, .skipR hk h => by
    conv_rhs => rw [stripObj]
    rw [if_pos hk]
    exact eqModDenyObj_strip h
  | _, _, .ocons hk hv h => by
    have hknot : ¬ isDenyKey _ = true := fun hh => by rw [hk] at hh; exact Bool.noConfusion hh
    rw [stripObj, if_neg hknot, stripObj, if_neg hknot, eqModDeny_strip hv,
      eqModDenyObj_strip h]

end

/-! ## Claim C7: canonicalization is idempotent and incidental-field-blind -/

/-- C7: stripping the denylisted incidental fields is idempotent — stripping an
already-stripped capture returns it unchanged — and any two captures that agree up
to denylisted fields at every nesting depth (arbitrary values, presence or position
of denylisted entries) strip to equal canonical results. -/
theorem strip_metadata_canonical :
    (∀ v, strip_metadata (strip_metadata v) = strip_metadata v) ∧
    ∀ v w, EqModDeny v w → strip_metadata v = strip_metadata w :=
  ⟨strip_metadata_idem, fun _ _ h => eqModDeny_strip h⟩

/-- Witness for C7: two concrete captures differing only in the denylisted
`choice_id` counter canonicalize identically, and canonicalization is idempotent on
the first of them. -/
theorem strip_metadata_canonical_witness :
    strip_metadata (strip_metadata captureA) = strip_metadata captureA ∧
      strip_metadata captureA = strip_metadata captureB :=
  ⟨strip_metadata_canonical.1 captureA,
   strip_metadata_canonical.2 captureA captureB
     (.jobj (.skipL (by decide) (.skipR (by decide)
       (.ocons (by decide) (.jnum 20) .onil))))⟩

/-! ## Segmented-execution lemmas -/

theorem contRun_add {σ : Type} (step : σ → σ) (emit : σ → List (List Char))
    (s : σ) (a b : Nat) :
    contRun step emit s (a + b) =
      ((contRun step emit (contRun step emit s a).1 b).1,
        (contRun step emit s a).2 ++ (contRun step emit (contRun step emit s a).1 b).2) := by
  induction a generalizing s with
  | zero => simp [contRun]
  | succ a ih =>
    have h1 : a + 1 + b = (a + b) + 1 := by omega
    rw [h1]
    simp only [contRun]
    rw [ih (step s)]
    simp [List.append_assoc]

theorem noticesW_excluded : ∀ j, ∀ L ∈ noticesW j, lineAction L = none := by
  intro j L hL
  simp only [noticesW, List.mem_singleton] at hL
  subst hL
  decide

/-! ## Claim C1: segmentation invariance -/

/-- C1 (spec-modelled: the engine binary is outside the Python sources; per spec
sections 4.4 and 6 it is a deterministic step machine whose snapshot/resume restores
the exact state, and boundary notices are dropped by the action filter): for every
valid SegmentPlan — non-terminal lengths summing to at most the decision total —
over the same decision trace, the segmented run reaches the same final state as the
continuous run, its filtered action sequence equals the continuous run's, and every
state capture taken of the two final states canonicalizes identically, regardless of
the number or position of segment boundaries. -/
theorem segmentation_invariance {σ : Type} (step : σ → σ)
    (emit : σ → List (List Char)) (notices : Nat → List (List Char)) :
    ∀ (plan : List Nat) (s : σ) (total i : Nat), plan.sum ≤ total →
      (∀ j, ∀ L ∈ notices j, lineAction L = none) →
      (segRun step emit notices s total i plan).1 = (contRun step emit s total).1 ∧
      filterLines (segRun step emit notices s total i plan).2 =
        filterLines (contRun step emit s total).2 ∧
      ∀ cap : σ → JValue,
        strip_metadata (cap (segRun step emit notices s total i plan).1) =
          strip_metadata (cap (contRun step emit s total).1) := by
  intro plan
  induction plan with
  | nil => exact fun s total i _ _ => ⟨rfl, rfl, fun _ => rfl⟩
  | cons len rest ih =>
    intro s total i hsum hnot
    rw [List.sum_cons] at hsum
    have hrest : rest.sum ≤ total - len := by omega
    obtain ⟨ihs, ihf, _⟩ :=
      ih (contRun step emit s len).1 (total - len) (i + 1) hrest hnot
    have hC := contRun_add step emit s len (total - len)
    have htot : len + (total - len) = total := by omega
    rw [htot] at hC
    have hnotice : (notices i).filterMap lineAction = [] :=
      List.filterMap_eq_nil_iff.mpr (hnot i)
    have hstate : (segRun step emit notices s total i (len :: rest)).1 =
        (contRun step emit s total).1 := by
      simp only [segRun]
      rw [hC]
      exact ihs
    refine ⟨hstate, ?_, fun cap => by rw [hstate]⟩
    simp only [segRun]
    rw [hC]
    unfold filterLines at ihf ⊢
    simp only [List.filterMap_append, hnotice, ihf, List.append_nil]

/-- Witness for C1: a concrete two-boundary plan over a five-decision trace of a
tiny engine reaches the continuous run's state, filtered actions, and canonical
capture. -/
theorem segmentation_invariance_witness :
    (segRun Nat.succ emitW noticesW 0 5 0 [2, 1]).1 = (contRun Nat.succ emitW 0 5).1 ∧
      filterLines (segRun Nat.succ emitW noticesW 0 5 0 [2, 1]).2 =
        filterLines (contRun Nat.succ emitW 0 5).2 ∧
      strip_metadata (capW (segRun Nat.succ emitW noticesW 0 5 0 [2, 1]).1) =
        strip_metadata (capW (contRun Nat.succ emitW 0 5).1) :=
  have h := segmentation_invariance Nat.succ emitW noticesW [2, 1] 0 5 0 (by decide)
    noticesW_excluded
  ⟨h.1, h.2.1, h.2.2 capW⟩
